import Mathlib

/-!
Shallow embedding of the oversea voice-agent frontend
(`src/frontend/src/AudioPlayer.ts`, `src/frontend/src/AudioStreamer.ts`,
`src/frontend/src/components/Agent.tsx`, `src/frontend/src/AppStreaming.tsx`,
`src/frontend/src/components/AgentDebug.tsx`) together with proofs about the
claims of the specification.

The `AudioPlayer` class is modelled as a small-step machine: its fields are a
record, every synchronous run of JavaScript between two suspension points
(`await fetch`, `await decodeAudioData`, the `onended` callback, the
`resume().then` callback) is one transition, and the nondeterministic order in
which the browser completes those asynchronous operations is the choice of the
next event.  Queue items carry a ghost `id` (their enqueue sequence number) and
the ghost generation at which they were enqueued; the machine also keeps a
ghost log of every `source.start` that happened, recording the generation the
item was enqueued at and the player generation at start time.
-/

set_option autoImplicit false

namespace AudioPlayer

/-- A queued audio item (`{url, text}` in the source); `id` is the ghost
enqueue sequence number and `enqGen` the ghost value of `currentGeneration`
when `addToQueue` pushed the item. -/
structure Item where
  id : Nat
  enqGen : Nat
deriving DecidableEq, Repr

/-- The suspension point at which an in-flight `playAudio` call currently
waits: before the fetch result, before the decode result (this also covers the
optional `audioContext.resume()` await), or playing while awaiting `onended`. -/
inductive Stage where
  | fetching (it : Item)
  | decoding (it : Item)
  | playing (it : Item)
deriving DecidableEq, Repr

/-- The item held by a stage. -/
def Stage.item : Stage → Item
  | Stage.fetching it => it
  | Stage.decoding it => it
  | Stage.playing it => it

/-- One live `processQueue(g)` loop together with the suspension point of the
`playAudio` call it is currently awaiting.  `g` is the generation captured at
`processQueue`'s entry. -/
structure Loop where
  g : Nat
  stage : Stage
deriving DecidableEq, Repr

/-- Ghost record of one `source.start(0)`: which item started, the generation
it was enqueued under, and `currentGeneration` at the moment of start. -/
structure StartRec where
  id : Nat
  enqGen : Nat
  startGen : Nat
deriving DecidableEq, Repr

/-- The fields of the `AudioPlayer` object plus the ghost data.  `active` is
the list of item ids whose sources are in `activeSources`, `tasks` the live
`processQueue` loops, `started` the chronological ghost log of starts and
`nextId` the ghost counter handing out item ids. -/
structure State where
  gen : Nat
  queue : List Item
  processing : Bool
  unlocked : Bool
  active : List Nat
  tasks : List Loop
  started : List StartRec
  nextId : Nat
deriving DecidableEq, Repr

/-- A freshly constructed `AudioPlayer`. -/
def init : State :=
  { gen := 0, queue := [], processing := false, unlocked := false,
    active := [], tasks := [], started := [], nextId := 0 }

/-- The head of the `while` loop of `processQueue(g)`, run synchronously until
the next suspension point: if the queue is non-empty and the captured
generation still matches, the head item is shifted and `playAudio` runs up to
its `await fetch` (a new `fetching` loop record); otherwise the loop exits and
clears `isProcessingQueue`. -/
def runLoop (g : Nat) (s : State) : State :=
  match s.queue with
  | [] => { s with processing := false }
  | it :: rest =>
    if g = s.gen then
      { s with queue := rest, tasks := s.tasks ++ [⟨g, Stage.fetching it⟩] }
    else
      { s with processing := false }

/-- A call of `processQueue(currentGeneration)`: returns at once if
`isProcessingQueue` is set, otherwise sets it and enters the loop. -/
def spawnQueue (s : State) : State :=
  if s.processing = true then s else runLoop s.gen { s with processing := true }

/-- The events of the machine.  `reset` is `reset()` (also reached through
`stop()`), `enqueue` is `addToQueue`, `unlockDone`/`unlockFail` are the two
continuations of `unlock()`'s `audioContext.resume()` promise, and the indexed
events resolve the suspension point of the `i`-th live loop: its fetch
completing, its decode completing, the fetch/decode throwing, or `onended`
firing for its started source. -/
inductive Ev where
  | reset
  | enqueue
  | unlockDone
  | unlockFail
  | fetchDone (i : Nat)
  | decodeDone (i : Nat)
  | fail (i : Nat)
  | ended (i : Nat)
deriving DecidableEq, Repr

/-- One transition of the `AudioPlayer` machine. -/
def step : Ev → State → State
  | Ev.reset, s =>
    { s with gen := s.gen + 1, queue := [], processing := false, active := [] }
  | Ev.enqueue, s =>
    if s.processing = false ∧ s.unlocked = true then
      spawnQueue { s with nextId := s.nextId + 1, queue := s.queue ++ [⟨s.nextId, s.gen⟩] }
    else
      { s with nextId := s.nextId + 1, queue := s.queue ++ [⟨s.nextId, s.gen⟩] }
  | Ev.unlockDone, s =>
    if s.queue ≠ [] ∧ s.processing = false then
      spawnQueue { s with unlocked := true }
    else
      { s with unlocked := true }
  | Ev.unlockFail, s => { s with unlocked := true }
  | Ev.fetchDone i, s =>
    match s.tasks[i]? with
    | some t =>
      match t.stage with
      | Stage.fetching it =>
        if t.g = s.gen then
          { s with tasks := s.tasks.set i ⟨t.g, Stage.decoding it⟩ }
        else
          runLoop t.g { s with tasks := s.tasks.eraseIdx i }
      | _ => s
    | none => s
  | Ev.decodeDone i, s =>
    match s.tasks[i]? with
    | some t =>
      match t.stage with
      | Stage.decoding it =>
        if t.g = s.gen then
          { s with tasks := s.tasks.set i ⟨t.g, Stage.playing it⟩,
                   active := s.active ++ [it.id],
                   started := s.started ++ [⟨it.id, it.enqGen, s.gen⟩] }
        else
          runLoop t.g { s with tasks := s.tasks.eraseIdx i }
      | _ => s
    | none => s
  | Ev.fail i, s =>
    match s.tasks[i]? with
    | some t =>
      match t.stage with
      | Stage.playing _ => s
      | _ => runLoop t.g { s with tasks := s.tasks.eraseIdx i }
    | none => s
  | Ev.ended i, s =>
    match s.tasks[i]? with
    | some t =>
      match t.stage with
      | Stage.playing it =>
        runLoop t.g { s with tasks := s.tasks.eraseIdx i, active := s.active.erase it.id }
      | _ => s
    | none => s

/-- Run a list of events from a state. -/
def run (evs : List Ev) (s : State) : State :=
  evs.foldl (fun s e => step e s) s

/-- `isPlaying()`: some source is active or a queue loop is processing. -/
def isPlaying (s : State) : Bool :=
  !s.active.isEmpty || s.processing

end AudioPlayer

namespace AudioPlayer

/-- Structural invariant of the player machine: every queued item was enqueued
at the current generation (`reset` clears the queue whenever it bumps the
generation), every live loop holds an item enqueued at the loop's captured
generation and that generation is at most the current one, and every logged
start happened at the generation its item was enqueued under. -/
def WF (s : State) : Prop :=
  (∀ it ∈ s.queue, it.enqGen = s.gen) ∧
  (∀ t ∈ s.tasks, t.stage.item.enqGen = t.g ∧ t.g ≤ s.gen) ∧
  (∀ r ∈ s.started, r.startGen = r.enqGen)

theorem wf_init : WF init := by
  refine ⟨?_, ?_, ?_⟩ <;> intro x hx <;> simp [init] at hx

theorem wf_runLoop {g : Nat} {s : State} (h : WF s) : WF (runLoop g s) := by
  obtain ⟨hq, ht, hr⟩ := h
  rw [runLoop]
  split
  · exact ⟨hq, ht, hr⟩
  · next it rest heq =>
    split
    · next hg =>
      refine ⟨?_, ?_, hr⟩
      · intro x hx
        exact hq x (by rw [heq]; exact List.mem_cons_of_mem _ hx)
      · intro t htm
        rcases List.mem_append.1 htm with hm | hm
        · exact ht t hm
        · have : t = ⟨g, Stage.fetching it⟩ := by simpa using hm
          subst this
          refine ⟨?_, le_of_eq hg⟩
          show (Stage.fetching it).item.enqGen = g
          rw [Stage.item, hq it (by rw [heq]; exact List.mem_cons_self _ _), hg]
    · exact ⟨hq, ht, hr⟩

theorem wf_spawnQueue {s : State} (h : WF s) : WF (spawnQueue s) := by
  obtain ⟨hq, ht, hr⟩ := h
  rw [spawnQueue]
  split
  · exact ⟨hq, ht, hr⟩
  · exact wf_runLoop ⟨hq, ht, hr⟩

theorem wf_eraseIdx {s : State} (i : Nat) (h : WF s) :
    WF { s with tasks := s.tasks.eraseIdx i } := by
  obtain ⟨hq, ht, hr⟩ := h
  exact ⟨hq, fun x hx => ht x (List.mem_of_mem_eraseIdx hx), hr⟩

theorem wf_step {s : State} (e : Ev) (h : WF s) : WF (step e s) := by
  obtain ⟨hq, ht, hr⟩ := h
  cases e with
  | reset =>
    refine ⟨?_, ?_, hr⟩
    · intro x hx; simp [step] at hx
    · intro t htm
      obtain ⟨h1, h2⟩ := ht t htm
      exact ⟨h1, Nat.le_succ_of_le h2⟩
  | enqueue =>
    have hs1 : WF { s with nextId := s.nextId + 1,
                           queue := s.queue ++ [⟨s.nextId, s.gen⟩] } := by
      refine ⟨?_, ht, hr⟩
      intro x hx
      rcases List.mem_append.1 hx with hm | hm
      · exact hq x hm
      · have hx1 : x = ⟨s.nextId, s.gen⟩ := by simpa using hm
        rw [hx1]
    simp only [step]
    split
    · exact wf_spawnQueue hs1
    · exact hs1
  | unlockDone =>
    have hs1 : WF { s with unlocked := true } := ⟨hq, ht, hr⟩
    simp only [step]
    split
    · exact wf_spawnQueue hs1
    · exact hs1
  | unlockFail => exact ⟨hq, ht, hr⟩
  | fetchDone i =>
    cases hgt : s.tasks[i]? with
    | none => simp only [step, hgt]; exact ⟨hq, ht, hr⟩
    | some t =>
      have htm := ht t (List.getElem?_mem hgt)
      cases hst : t.stage with
      | fetching it =>
        simp only [step, hgt, hst]
        split
        · next hgen =>
          refine ⟨hq, ?_, hr⟩
          intro x hx
          rcases List.mem_or_eq_of_mem_set hx with hm | hm
          · exact ht x hm
          · rw [hm]
            refine ⟨?_, htm.2⟩
            show (Stage.decoding it).item.enqGen = t.g
            have h1 := htm.1
            rw [hst] at h1
            simpa [Stage.item] using h1
        · exact wf_runLoop (wf_eraseIdx i ⟨hq, ht, hr⟩)
      | decoding it => simp only [step, hgt, hst]; exact ⟨hq, ht, hr⟩
      | playing it => simp only [step, hgt, hst]; exact ⟨hq, ht, hr⟩
  | decodeDone i =>
    cases hgt : s.tasks[i]? with
    | none => simp only [step, hgt]; exact ⟨hq, ht, hr⟩
    | some t =>
      have htm := ht t (List.getElem?_mem hgt)
      cases hst : t.stage with
      | fetching it => simp only [step, hgt, hst]; exact ⟨hq, ht, hr⟩
      | decoding it =>
        simp only [step, hgt, hst]
        split
        · next hgen =>
          have h1 := htm.1
          rw [hst] at h1
          simp only [Stage.item] at h1
          refine ⟨hq, ?_, ?_⟩
          · intro x hx
            rcases List.mem_or_eq_of_mem_set hx with hm | hm
            · exact ht x hm
            · rw [hm]
              refine ⟨?_, htm.2⟩
              show (Stage.playing it).item.enqGen = t.g
              simpa [Stage.item] using h1
          · intro r hrm
            rcases List.mem_append.1 hrm with hm | hm
            · exact hr r hm
            · have hx1 : r = ⟨it.id, it.enqGen, s.gen⟩ := by simpa using hm
              rw [hx1]
              show s.gen = it.enqGen
              rw [h1, hgen]
        · exact wf_runLoop (wf_eraseIdx i ⟨hq, ht, hr⟩)
      | playing it => simp only [step, hgt, hst]; exact ⟨hq, ht, hr⟩
  | fail i =>
    cases hgt : s.tasks[i]? with
    | none => simp only [step, hgt]; exact ⟨hq, ht, hr⟩
    | some t =>
      cases hst : t.stage with
      | fetching it =>
        simp only [step, hgt, hst]
        exact wf_runLoop (wf_eraseIdx i ⟨hq, ht, hr⟩)
      | decoding it =>
        simp only [step, hgt, hst]
        exact wf_runLoop (wf_eraseIdx i ⟨hq, ht, hr⟩)
      | playing it => simp only [step, hgt, hst]; exact ⟨hq, ht, hr⟩
  | ended i =>
    cases hgt : s.tasks[i]? with
    | none => simp only [step, hgt]; exact ⟨hq, ht, hr⟩
    | some t =>
      cases hst : t.stage with
      | fetching it => simp only [step, hgt, hst]; exact ⟨hq, ht, hr⟩
      | decoding it => simp only [step, hgt, hst]; exact ⟨hq, ht, hr⟩
      | playing it =>
        simp only [step, hgt, hst]
        apply wf_runLoop
        exact ⟨hq, fun x hx => ht x (List.mem_of_mem_eraseIdx hx), hr⟩

theorem wf_run (evs : List Ev) {s : State} (h : WF s) : WF (run evs s) := by
  induction evs generalizing s with
  | nil => exact h
  | cons e evs ih => exact ih (wf_step e h)

end AudioPlayer

namespace AudioPlayer

theorem gen_runLoop (g : Nat) (s : State) : (runLoop g s).gen = s.gen := by
  rw [runLoop]
  split
  · rfl
  · split <;> rfl

theorem gen_spawnQueue (s : State) : (spawnQueue s).gen = s.gen := by
  rw [spawnQueue]
  split
  · rfl
  · rw [gen_runLoop]

theorem gen_step_reset (s : State) : (step Ev.reset s).gen = s.gen + 1 := rfl

theorem gen_step_other {e : Ev} (s : State) (h : e ≠ Ev.reset) :
    (step e s).gen = s.gen := by
  cases e with
  | reset => exact absurd rfl h
  | enqueue =>
    simp only [step]
    split
    · rw [gen_spawnQueue]
    · rfl
  | unlockDone =>
    simp only [step]
    split
    · rw [gen_spawnQueue]
    · rfl
  | unlockFail => rfl
  | fetchDone i =>
    cases hgt : s.tasks[i]? with
    | none => simp only [step, hgt]
    | some t =>
      cases hst : t.stage with
      | fetching it =>
        simp only [step, hgt, hst]
        split
        · rfl
        · rw [gen_runLoop]
      | decoding it => simp only [step, hgt, hst]
      | playing it => simp only [step, hgt, hst]
  | decodeDone i =>
    cases hgt : s.tasks[i]? with
    | none => simp only [step, hgt]
    | some t =>
      cases hst : t.stage with
      | fetching it => simp only [step, hgt, hst]
      | decoding it =>
        simp only [step, hgt, hst]
        split
        · rfl
        · rw [gen_runLoop]
      | playing it => simp only [step, hgt, hst]
  | fail i =>
    cases hgt : s.tasks[i]? with
    | none => simp only [step, hgt]
    | some t =>
      cases hst : t.stage with
      | fetching it => simp only [step, hgt, hst]; rw [gen_runLoop]
      | decoding it => simp only [step, hgt, hst]; rw [gen_runLoop]
      | playing it => simp only [step, hgt, hst]
  | ended i =>
    cases hgt : s.tasks[i]? with
    | none => simp only [step, hgt]
    | some t =>
      cases hst : t.stage with
      | fetching it => simp only [step, hgt, hst]
      | decoding it => simp only [step, hgt, hst]
      | playing it => simp only [step, hgt, hst]; rw [gen_runLoop]

theorem gen_le_step (e : Ev) (s : State) : s.gen ≤ (step e s).gen := by
  by_cases h : e = Ev.reset
  · rw [h, gen_step_reset]; exact Nat.le_succ _
  · rw [gen_step_other s h]

theorem gen_le_run (evs : List Ev) (s : State) : s.gen ≤ (run evs s).gen := by
  induction evs generalizing s with
  | nil => exact Nat.le_refl _
  | cons e evs ih => exact Nat.le_trans (gen_le_step e s) (ih (step e s))

theorem run_append (l₁ l₂ : List Ev) (s : State) :
    run (l₁ ++ l₂) s = run l₂ (run l₁ s) :=
  List.foldl_append _ _ _ _

end AudioPlayer

namespace AudioPlayer

/-- After a reset: nothing queued, no loop owns `isProcessingQueue`, no active
source, and every still-live loop was captured at a strictly older generation,
so it can only wind down. -/
def Quiet (s : State) : Prop :=
  s.queue = [] ∧ s.processing = false ∧ s.active = [] ∧ ∀ t ∈ s.tasks, t.g < s.gen

theorem runLoop_nil {g : Nat} {s : State} (h : s.queue = []) :
    runLoop g s = { s with processing := false } := by
  rw [runLoop, h]

theorem quiet_after_reset {s : State} (h : ∀ t ∈ s.tasks, t.g ≤ s.gen) :
    Quiet (step Ev.reset s) :=
  ⟨rfl, rfl, rfl, fun t ht => Nat.lt_succ_of_le (h t ht)⟩

theorem quiet_step {e : Ev} {s : State} (h : Quiet s) (he : e ≠ Ev.enqueue) :
    Quiet (step e s) := by
  obtain ⟨h1, h2, h3, h4⟩ := h
  cases e with
  | reset =>
    exact ⟨rfl, rfl, rfl, fun t ht => Nat.lt_succ_of_lt (h4 t ht)⟩
  | enqueue => exact absurd rfl he
  | unlockDone =>
    simp only [step]
    rw [if_neg (fun hc => hc.1 h1)]
    exact ⟨h1, h2, h3, h4⟩
  | unlockFail => exact ⟨h1, h2, h3, h4⟩
  | fetchDone i =>
    cases hgt : s.tasks[i]? with
    | none => simp only [step, hgt]; exact ⟨h1, h2, h3, h4⟩
    | some t =>
      have hlt := h4 t (List.getElem?_mem hgt)
      cases hst : t.stage with
      | fetching it =>
        simp only [step, hgt, hst]
        have h1e : ({ s with tasks := s.tasks.eraseIdx i } : State).queue = [] := h1
        rw [if_neg (Nat.ne_of_lt hlt), runLoop_nil h1e]
        exact ⟨h1, rfl, h3, fun x hx => h4 x (List.mem_of_mem_eraseIdx hx)⟩
      | decoding it => simp only [step, hgt, hst]; exact ⟨h1, h2, h3, h4⟩
      | playing it => simp only [step, hgt, hst]; exact ⟨h1, h2, h3, h4⟩
  | decodeDone i =>
    cases hgt : s.tasks[i]? with
    | none => simp only [step, hgt]; exact ⟨h1, h2, h3, h4⟩
    | some t =>
      have hlt := h4 t (List.getElem?_mem hgt)
      cases hst : t.stage with
      | fetching it => simp only [step, hgt, hst]; exact ⟨h1, h2, h3, h4⟩
      | decoding it =>
        simp only [step, hgt, hst]
        have h1e : ({ s with tasks := s.tasks.eraseIdx i } : State).queue = [] := h1
        rw [if_neg (Nat.ne_of_lt hlt), runLoop_nil h1e]
        exact ⟨h1, rfl, h3, fun x hx => h4 x (List.mem_of_mem_eraseIdx hx)⟩
      | playing it => simp only [step, hgt, hst]; exact ⟨h1, h2, h3, h4⟩
  | fail i =>
    cases hgt : s.tasks[i]? with
    | none => simp only [step, hgt]; exact ⟨h1, h2, h3, h4⟩
    | some t =>
      cases hst : t.stage with
      | fetching it =>
        simp only [step, hgt, hst]
        have h1e : ({ s with tasks := s.tasks.eraseIdx i } : State).queue = [] := h1
        rw [runLoop_nil h1e]
        exact ⟨h1, rfl, h3, fun x hx => h4 x (List.mem_of_mem_eraseIdx hx)⟩
      | decoding it =>
        simp only [step, hgt, hst]
        have h1e : ({ s with tasks := s.tasks.eraseIdx i } : State).queue = [] := h1
        rw [runLoop_nil h1e]
        exact ⟨h1, rfl, h3, fun x hx => h4 x (List.mem_of_mem_eraseIdx hx)⟩
      | playing it => simp only [step, hgt, hst]; exact ⟨h1, h2, h3, h4⟩
  | ended i =>
    cases hgt : s.tasks[i]? with
    | none => simp only [step, hgt]; exact ⟨h1, h2, h3, h4⟩
    | some t =>
      cases hst : t.stage with
      | fetching it => simp only [step, hgt, hst]; exact ⟨h1, h2, h3, h4⟩
      | decoding it => simp only [step, hgt, hst]; exact ⟨h1, h2, h3, h4⟩
      | playing it =>
        simp only [step, hgt, hst]
        rw [runLoop_nil (by simpa using h1)]
        refine ⟨h1, rfl, ?_, fun x hx => h4 x (List.mem_of_mem_eraseIdx hx)⟩
        rw [h3]
        rfl
  
theorem quiet_run {evs : List Ev} {s : State} (h : Quiet s)
    (he : ∀ e ∈ evs, e ≠ Ev.enqueue) : Quiet (run evs s) := by
  induction evs generalizing s with
  | nil => exact h
  | cons e evs ih =>
    exact ih (quiet_step h (he e (List.mem_cons_self _ _)))
      (fun x hx => he x (List.mem_cons_of_mem _ hx))

theorem isPlaying_of_quiet {s : State} (h : Quiet s) : isPlaying s = false := by
  obtain ⟨h1, h2, h3, h4⟩ := h
  rw [isPlaying, h2, h3]
  rfl

end AudioPlayer

/-- C1: stale-generation work is discarded.  Along every event sequence of the
`AudioPlayer` machine (arbitrary interleavings of `reset`, `addToQueue`,
unlock continuations and fetch/decode/onended resolutions), every item start
that actually reaches `source.start` happens at exactly the generation the
item was enqueued under: since `reset` is the only mutation of
`currentGeneration` and it strictly increases it, no item enqueued before a
`reset` is ever started after it — the loop-head generation check of
`processQueue` and the re-checks of `playAudio` after its awaits cut every
stale path. -/
theorem claimC1 (evs : List AudioPlayer.Ev) (r : AudioPlayer.StartRec)
    (hr : r ∈ (AudioPlayer.run evs AudioPlayer.init).started) :
    r.startGen = r.enqGen :=
  (AudioPlayer.wf_run evs AudioPlayer.wf_init).2.2 r hr

theorem claimC1_witness :
    (⟨0, 0, 0⟩ : AudioPlayer.StartRec) ∈
      (AudioPlayer.run
        [AudioPlayer.Ev.unlockDone, AudioPlayer.Ev.enqueue,
         AudioPlayer.Ev.fetchDone 0, AudioPlayer.Ev.decodeDone 0]
        AudioPlayer.init).started
    ∧ (⟨0, 0, 0⟩ : AudioPlayer.StartRec).startGen
        = (⟨0, 0, 0⟩ : AudioPlayer.StartRec).enqGen :=
  ⟨by decide,
   claimC1
     [AudioPlayer.Ev.unlockDone, AudioPlayer.Ev.enqueue,
      AudioPlayer.Ev.fetchDone 0, AudioPlayer.Ev.decodeDone 0]
     ⟨0, 0, 0⟩ (by decide)⟩

/-- The interleaving defeating the claim that the `isProcessingQueue` flag
lets only one `processQueue` loop run and keeps playback FIFO.  Generation 0:
one item is enqueued and its loop suspends in `fetch`.  Two resets later
(generation 2) items 2 and 3 are enqueued; item 2's loop is fetching.  Now the
stale generation-0 fetch resolves: its loop observes the generation mismatch,
breaks, and clears `isProcessingQueue` even though item 2's loop is still
mid-`playAudio`.  The next enqueue (item 4) therefore spawns a second loop in
generation 2, which shifts item 3.  Item 3's fetch and decode complete before
item 2's, so item 3 starts first and both sources then play concurrently. -/
def raceTrace : List AudioPlayer.Ev :=
  [AudioPlayer.Ev.unlockDone, AudioPlayer.Ev.enqueue, AudioPlayer.Ev.reset,
   AudioPlayer.Ev.enqueue, AudioPlayer.Ev.reset, AudioPlayer.Ev.enqueue,
   AudioPlayer.Ev.enqueue, AudioPlayer.Ev.fetchDone 0, AudioPlayer.Ev.enqueue,
   AudioPlayer.Ev.fetchDone 2, AudioPlayer.Ev.decodeDone 2,
   AudioPlayer.Ev.fetchDone 1, AudioPlayer.Ev.decodeDone 1]

/-- C2: the code violates the claim.  Running the player over `raceTrace`
(a reachable interleaving of `addToQueue`/`reset` calls and fetch/decode
completions), items 2 and 3 are both enqueued at generation 2 with no reset
between their `addToQueue` calls, yet the start log records item 3 starting
before item 2, and both their sources are in `activeSources` simultaneously —
so within one generation starts are neither FIFO nor one at a time. -/
theorem claimC2 :
    (AudioPlayer.run raceTrace AudioPlayer.init).started
        = [⟨3, 2, 2⟩, ⟨2, 2, 2⟩]
    ∧ (AudioPlayer.run raceTrace AudioPlayer.init).active = [3, 2]
    ∧ (AudioPlayer.run raceTrace AudioPlayer.init).gen = 2 := by
  decide

/-- C5: the `stop_audio_immediately` handler calls `AudioPlayer.stop()`, which
is `reset()`: from any reachable player state it empties `activeSources`,
empties the playback queue, clears `isProcessingQueue`, and `isPlaying()` is
false and stays false under every continuation that contains no new
`addToQueue` call. -/
theorem claimC5 (evs₀ evs : List AudioPlayer.Ev)
    (h : ∀ e ∈ evs, e ≠ AudioPlayer.Ev.enqueue) :
    (AudioPlayer.step AudioPlayer.Ev.reset (AudioPlayer.run evs₀ AudioPlayer.init)).active = []
    ∧ (AudioPlayer.step AudioPlayer.Ev.reset (AudioPlayer.run evs₀ AudioPlayer.init)).queue = []
    ∧ (AudioPlayer.step AudioPlayer.Ev.reset (AudioPlayer.run evs₀ AudioPlayer.init)).processing = false
    ∧ AudioPlayer.isPlaying
        (AudioPlayer.step AudioPlayer.Ev.reset (AudioPlayer.run evs₀ AudioPlayer.init)) = false
    ∧ AudioPlayer.isPlaying
        (AudioPlayer.run evs
          (AudioPlayer.step AudioPlayer.Ev.reset (AudioPlayer.run evs₀ AudioPlayer.init))) = false := by
  have hwf := AudioPlayer.wf_run evs₀ AudioPlayer.wf_init
  have hq := AudioPlayer.quiet_after_reset (fun t ht => (hwf.2.1 t ht).2)
  exact ⟨hq.2.2.1, hq.1, hq.2.1, AudioPlayer.isPlaying_of_quiet hq,
    AudioPlayer.isPlaying_of_quiet (AudioPlayer.quiet_run hq h)⟩

theorem claimC5_witness :
    AudioPlayer.isPlaying
      (AudioPlayer.run [AudioPlayer.Ev.fetchDone 0]
        (AudioPlayer.step AudioPlayer.Ev.reset
          (AudioPlayer.run [AudioPlayer.Ev.unlockDone, AudioPlayer.Ev.enqueue]
            AudioPlayer.init))) = false :=
  (claimC5 [AudioPlayer.Ev.unlockDone, AudioPlayer.Ev.enqueue]
    [AudioPlayer.Ev.fetchDone 0] (by decide)).2.2.2.2

/-- C8: the generation counter of the player is monotone and never reused:
`reset` is the only event that changes it (by exactly +1), it never decreases
along any run, and once it has moved past a value it never returns to it (the
states holding a given value form a contiguous block of every run). -/
theorem claimC8 :
    (∀ s : AudioPlayer.State,
      (AudioPlayer.step AudioPlayer.Ev.reset s).gen = s.gen + 1)
    ∧ (∀ (e : AudioPlayer.Ev) (s : AudioPlayer.State), e ≠ AudioPlayer.Ev.reset →
        (AudioPlayer.step e s).gen = s.gen)
    ∧ (∀ l₁ l₂ : List AudioPlayer.Ev,
        (AudioPlayer.run l₁ AudioPlayer.init).gen
          ≤ (AudioPlayer.run (l₁ ++ l₂) AudioPlayer.init).gen)
    ∧ (∀ l₁ l₂ l₃ : List AudioPlayer.Ev,
        (AudioPlayer.run (l₁ ++ l₂ ++ l₃) AudioPlayer.init).gen
            = (AudioPlayer.run l₁ AudioPlayer.init).gen →
        (AudioPlayer.run (l₁ ++ l₂) AudioPlayer.init).gen
            = (AudioPlayer.run l₁ AudioPlayer.init).gen) := by
  refine ⟨AudioPlayer.gen_step_reset, fun e s he => AudioPlayer.gen_step_other s he,
    ?_, ?_⟩
  · intro l₁ l₂
    rw [AudioPlayer.run_append]
    exact AudioPlayer.gen_le_run l₂ _
  · intro l₁ l₂ l₃ h
    apply Nat.le_antisymm
    · calc (AudioPlayer.run (l₁ ++ l₂) AudioPlayer.init).gen
          ≤ (AudioPlayer.run (l₁ ++ l₂ ++ l₃) AudioPlayer.init).gen := by
            rw [AudioPlayer.run_append (l₁ ++ l₂) l₃]
            exact AudioPlayer.gen_le_run l₃ _
        _ = (AudioPlayer.run l₁ AudioPlayer.init).gen := h
    · rw [AudioPlayer.run_append]
      exact AudioPlayer.gen_le_run l₂ _

theorem claimC8_witness :
    (AudioPlayer.step AudioPlayer.Ev.enqueue AudioPlayer.init).gen
        = AudioPlayer.init.gen
    ∧ (AudioPlayer.run ([AudioPlayer.Ev.enqueue] ++ [AudioPlayer.Ev.unlockDone])
          AudioPlayer.init).gen
        = (AudioPlayer.run [AudioPlayer.Ev.enqueue] AudioPlayer.init).gen :=
  ⟨claimC8.2.1 AudioPlayer.Ev.enqueue AudioPlayer.init (by decide),
   claimC8.2.2.2 [AudioPlayer.Ev.enqueue] [AudioPlayer.Ev.unlockDone] [] (by decide)⟩

namespace Dialog

/-- Role of a conversation entry (`role ∈ {user, assistant}`). -/
inductive Role where
  | user
  | assistant
deriving DecidableEq, Repr

/-- One entry of the rendered conversation history
(`{role: string, content: string}`). -/
structure Entry where
  role : Role
  content : String
deriving DecidableEq, Repr

/-- In-place update of the last entry's content
(`newConv[newConv.length - 1].content = c`). -/
def setLastContent (conv : List Entry) (c : String) : List Entry :=
  match conv.getLast? with
  | some e => conv.dropLast ++ [{ e with content := c }]
  | none => conv

end Dialog

namespace Agent

open Dialog

/-- Client state of the `Agent` component (`Agent.tsx`): the rendered
conversation, `pendingResponseRef`, `currentResponseRef` and
`isProcessingRef`. -/
structure AState where
  conv : List Entry
  pending : Option String
  cur : String
  processing : Bool
deriving DecidableEq, Repr

/-- Initial `Agent` component state. -/
def initA : AState :=
  { conv := [], pending := none, cur := "", processing := false }

/-- Events driving the `Agent` component: the silence timer firing on a user
utterance, and the `stream_start` / `text_chunk` / `audio_chunk` /
`stream_complete` server messages, plus the audio player's completion
callback. -/
inductive AEv where
  | userUtter (p : String)
  | streamStart
  | textChunk (t : String)
  | audioChunk
  | streamComplete (interrupted : Bool) (full : String)
  | audioDone
deriving DecidableEq, Repr

/-- The `stream_start` conversation update: append the pending user message
and an empty assistant entry, skipping the user entry when it is already the
trailing entry (the duplicate check in the source). -/
def pushTurn (conv : List Entry) (p : String) : List Entry :=
  match conv.getLast? with
  | some e =>
    if e.role = Role.user ∧ e.content = p then
      conv ++ [⟨Role.assistant, ""⟩]
    else
      conv ++ [⟨Role.user, p⟩, ⟨Role.assistant, ""⟩]
  | none => conv ++ [⟨Role.user, p⟩, ⟨Role.assistant, ""⟩]

/-- First half of the interrupted `stream_complete` branch: pop the trailing
assistant entry if present. -/
def popAssistantLast (conv : List Entry) : List Entry :=
  match conv.getLast? with
  | some e => if e.role = Role.assistant then conv.dropLast else conv
  | none => conv

/-- Second half of the interrupted `stream_complete` branch: pop the trailing
user entry when its content strictly equals the still-pending user message
(comparison with `null` is false). -/
def popPendingUser (conv : List Entry) (pending : Option String) : List Entry :=
  match conv.getLast?, pending with
  | some e, some p => if e.role = Role.user ∧ e.content = p then conv.dropLast else conv
  | _, _ => conv

/-- The interrupted branch of `stream_complete`: remove the incomplete
assistant entry, then the matching pending user entry. -/
def dropInterrupted (conv : List Entry) (pending : Option String) : List Entry :=
  popPendingUser (popAssistantLast conv) pending

/-- Conversation update of `stream_complete`: on a normal completion the
trailing assistant entry is overwritten with the full text, on an interrupted
one the trailing entries are removed. -/
def completeConv (conv : List Entry) (pending : Option String)
    (interrupted : Bool) (full : String) : List Entry :=
  if interrupted = false then
    match conv.getLast? with
    | some e => if e.role = Role.assistant then setLastContent conv full else conv
    | none => conv
  else
    dropInterrupted conv pending

/-- One transition of the `Agent` component. -/
def stepA : AEv → AState → AState
  | AEv.userUtter p, s =>
    if s.pending = none ∧ s.processing = false then { s with pending := some p } else s
  | AEv.streamStart, s =>
    match s.pending with
    | none => s
    | some p => { s with conv := pushTurn s.conv p, cur := "", processing := true }
  | AEv.textChunk t, s =>
    match s.conv.getLast? with
    | some e =>
      if e.role = Role.assistant then
        { s with cur := s.cur ++ t, conv := setLastContent s.conv (s.cur ++ t) }
      else
        { s with cur := s.cur ++ t }
    | none => { s with cur := s.cur ++ t }
  | AEv.audioChunk, s => { s with pending := none }
  | AEv.streamComplete intr full, s =>
    match s.pending with
    | some _ =>
      { s with conv := completeConv s.conv s.pending intr full,
               pending := none, processing := false }
    | none => { s with conv := completeConv s.conv s.pending intr full }
  | AEv.audioDone, s => { s with processing := false }

/-- Run a list of events through the `Agent` component. -/
def runA (evs : List AEv) (s : AState) : AState :=
  evs.foldl (fun s e => stepA e s) s

end Agent

namespace AppStream

open Dialog

/-- Client state of the streaming app (`AppStreaming.tsx`): the rendered
conversation and `currentResponseRef`. -/
structure SState where
  conv : List Entry
  cur : String
deriving DecidableEq, Repr

/-- Initial streaming-app state. -/
def initS : SState :=
  { conv := [], cur := "" }

/-- Events of the streaming app that touch the conversation: the
`user_transcript`, `text_chunk` and `stream_complete` server messages. -/
inductive SEv where
  | userTranscript (t : String)
  | textChunk (t : String)
  | streamComplete
deriving DecidableEq, Repr

/-- One transition of the streaming app.  `user_transcript` unconditionally
appends a user entry; `text_chunk` extends the trailing assistant entry or
pushes a fresh one; `stream_complete` leaves the conversation unchanged. -/
def stepS : SEv → SState → SState
  | SEv.userTranscript t, s =>
    { s with conv := s.conv ++ [⟨Role.user, t⟩], cur := "" }
  | SEv.textChunk t, s =>
    match s.conv.getLast? with
    | some e =>
      if e.role = Role.assistant then
        { s with cur := s.cur ++ t, conv := setLastContent s.conv (s.cur ++ t) }
      else
        { s with cur := s.cur ++ t, conv := s.conv ++ [⟨Role.assistant, s.cur ++ t⟩] }
    | none => { s with cur := s.cur ++ t, conv := s.conv ++ [⟨Role.assistant, s.cur ++ t⟩] }
  | SEv.streamComplete, s => s

/-- Run a list of events through the streaming app. -/
def runS (evs : List SEv) (s : SState) : SState :=
  evs.foldl (fun s e => stepS e s) s

/-- Adjacent entries are never both assistant entries. -/
def RoleOk (a b : Entry) : Prop :=
  ¬(a.role = Role.assistant ∧ b.role = Role.assistant)

end AppStream

namespace Client

/-- The part of the streaming app's client state touched by `interruptAI`:
the audio player plus the `isProcessing` flag and the streaming text. -/
structure CState where
  player : AudioPlayer.State
  isProcessing : Bool
  streamingText : String

/-- `interruptAI` (`AppStreaming.tsx`): reset the audio player, send the
`interrupt` control frame (no client-state effect), clear the processing
flags and the streaming text. -/
def interruptAI (c : CState) : CState :=
  { player := AudioPlayer.step AudioPlayer.Ev.reset c.player,
    isProcessing := false, streamingText := "" }

/-- The observables named by the idempotence claim: playback queue, active
sources, `isProcessingQueue`, the processing flag and the streaming text. -/
structure Obs where
  queue : List AudioPlayer.Item
  active : List Nat
  processingQueue : Bool
  isProcessing : Bool
  streamingText : String
deriving DecidableEq, Repr

/-- Project a client state to the claim's observables. -/
def obs (c : CState) : Obs :=
  ⟨c.player.queue, c.player.active, c.player.processing, c.isProcessing, c.streamingText⟩

end Client

namespace Agent

theorem popAssistantLast_take (conv : List Dialog.Entry) :
    ∃ j, conv.length - 1 ≤ j ∧ j ≤ conv.length ∧ popAssistantLast conv = conv.take j := by
  cases hL : conv.getLast? with
  | none =>
    refine ⟨conv.length, by omega, Nat.le_refl _, ?_⟩
    simp only [popAssistantLast, hL]
    exact (List.take_length conv).symm
  | some e =>
    by_cases he : e.role = Dialog.Role.assistant
    · refine ⟨conv.length - 1, Nat.le_refl _, by omega, ?_⟩
      simp only [popAssistantLast, hL, if_pos he]
      exact List.dropLast_eq_take conv
    · refine ⟨conv.length, by omega, Nat.le_refl _, ?_⟩
      simp only [popAssistantLast, hL, if_neg he]
      exact (List.take_length conv).symm

theorem popPendingUser_take (conv : List Dialog.Entry) (pending : Option String) :
    ∃ j, conv.length - 1 ≤ j ∧ j ≤ conv.length ∧ popPendingUser conv pending = conv.take j := by
  cases hL : conv.getLast? with
  | none =>
    refine ⟨conv.length, by omega, Nat.le_refl _, ?_⟩
    cases pending <;> simp only [popPendingUser, hL] <;> exact (List.take_length conv).symm
  | some e =>
    cases pending with
    | none =>
      refine ⟨conv.length, by omega, Nat.le_refl _, ?_⟩
      simp only [popPendingUser, hL]
      exact (List.take_length conv).symm
    | some p =>
      by_cases he : e.role = Dialog.Role.user ∧ e.content = p
      · refine ⟨conv.length - 1, Nat.le_refl _, by omega, ?_⟩
        simp only [popPendingUser, hL, if_pos he]
        exact List.dropLast_eq_take conv
      · refine ⟨conv.length, by omega, Nat.le_refl _, ?_⟩
        simp only [popPendingUser, hL, if_neg he]
        exact (List.take_length conv).symm

theorem dropInterrupted_take (conv : List Dialog.Entry) (pending : Option String) :
    ∃ k, conv.length - 2 ≤ k ∧ dropInterrupted conv pending = conv.take k := by
  obtain ⟨j₁, hj₁, hj₁le, hpa⟩ := popAssistantLast_take conv
  obtain ⟨j₂, hj₂, hj₂le, hpu⟩ := popPendingUser_take (popAssistantLast conv) pending
  have hlen : (popAssistantLast conv).length = j₁ := by
    rw [hpa, List.length_take]
    omega
  rw [hlen] at hj₂
  refine ⟨min j₂ j₁, by omega, ?_⟩
  rw [dropInterrupted, hpu, hpa, List.take_take]

end Agent

/-- C3: the claim fails on the code.  In the `Agent` component, a turn whose
user message "hi" is pending and whose assistant entry already shows the
delivered partial text "Hello" is wiped entirely by a
`stream_complete {interrupted: true}`: the handler pops the assistant entry
(including the delivered partial content) and, because the user entry matches
the pending message, the user entry too, leaving an empty history instead of
retaining what the client had displayed. -/
theorem claimC3_cex :
    (Agent.runA [Agent.AEv.userUtter "hi", Agent.AEv.streamStart,
        Agent.AEv.textChunk "Hello"] Agent.initA).conv
      = [⟨Dialog.Role.user, "hi"⟩, ⟨Dialog.Role.assistant, "Hello"⟩]
    ∧ (Agent.stepA (Agent.AEv.streamComplete true "x")
        (Agent.runA [Agent.AEv.userUtter "hi", Agent.AEv.streamStart,
          Agent.AEv.textChunk "Hello"] Agent.initA)).conv
      = [] := by
  constructor <;> rfl

/-- C3 (amended): on `stream_complete` with `interrupted = true` the client
does not retain the delivered partial content; it deletes from the tail of the
history: the resulting conversation is always an initial segment of the prior
one, and at most the last two entries (the trailing assistant entry — even
when partial content had been delivered and displayed — and the matching
pending user entry) are removed. -/
theorem claimC3 (s : Agent.AState) (full : String) :
    ∃ k, s.conv.length - 2 ≤ k ∧
      (Agent.stepA (Agent.AEv.streamComplete true full) s).conv = s.conv.take k := by
  have hconv : (Agent.stepA (Agent.AEv.streamComplete true full) s).conv
      = Agent.dropInterrupted s.conv s.pending := by
    cases hp : s.pending with
    | none =>
      simp only [Agent.stepA, hp, Agent.completeConv, Bool.true_eq_false, if_false]
    | some p =>
      simp only [Agent.stepA, hp, Agent.completeConv, Bool.true_eq_false, if_false]
  rw [hconv]
  exact Agent.dropInterrupted_take s.conv s.pending

namespace AppStream

theorem roleOk_of_user_snd {x e : Dialog.Entry} (he : e.role = Dialog.Role.user) :
    RoleOk x e := by
  rintro ⟨-, hc⟩
  rw [he] at hc
  exact Dialog.Role.noConfusion hc

theorem chain'_stepS {s : SState} (e : SEv) (h : List.Chain' RoleOk s.conv) :
    List.Chain' RoleOk (stepS e s).conv := by
  cases e with
  | userTranscript t =>
    simp only [stepS]
    rw [List.chain'_append]
    refine ⟨h, List.chain'_singleton _, ?_⟩
    intro x hx y hy
    simp only [List.head?_cons, Option.mem_def, Option.some.injEq] at hy
    rw [← hy]
    exact roleOk_of_user_snd rfl
  | textChunk t =>
    cases hL : s.conv.getLast? with
    | none =>
      have hnil : s.conv = [] := List.getLast?_eq_none_iff.mp hL
      simp only [stepS, hL, hnil, List.nil_append]
      exact List.chain'_singleton _
    | some e =>
      have hne : s.conv ≠ [] := by
        intro hc
        rw [hc] at hL
        exact Option.noConfusion hL
      have hgl : s.conv.getLast hne = e := by
        rw [List.getLast?_eq_getLast s.conv hne] at hL
        exact Option.some_injective _ hL
      have hsplit : s.conv.dropLast ++ [e] = s.conv := by
        rw [← hgl]
        exact List.dropLast_append_getLast hne
      by_cases he : e.role = Dialog.Role.assistant
      · simp only [stepS, hL, if_pos he, Dialog.setLastContent]
        have h' := h
        rw [← hsplit, List.chain'_append] at h'
        obtain ⟨ha, -, hc⟩ := h'
        rw [List.chain'_append]
        refine ⟨ha, List.chain'_singleton _, ?_⟩
        intro x hx y hy
        simp only [List.head?_cons, Option.mem_def, Option.some.injEq] at hy
        rw [← hy]
        intro hand
        exact hc x hx e (by simp) ⟨hand.1, hand.2⟩
      · simp only [stepS, hL, if_neg he]
        rw [List.chain'_append]
        refine ⟨h, List.chain'_singleton _, ?_⟩
        intro x hx y hy
        simp only [List.head?_cons, Option.mem_def, Option.some.injEq] at hy
        rw [← hy]
        intro hand
        rw [List.getLast?_eq_getLast s.conv hne, Option.mem_def,
          Option.some.injEq] at hx
        rw [← hx, hgl] at hand
        exact he hand.1
  | streamComplete => exact h

theorem chain'_runS (evs : List SEv) {s : SState}
    (h : List.Chain' RoleOk s.conv) : List.Chain' RoleOk (runS evs s).conv := by
  induction evs generalizing s with
  | nil => exact h
  | cons e evs ih => exact ih (chain'_stepS e h)

end AppStream

/-- C4: the claim fails on the code.  Two `user_transcript` messages with no
`text_chunk` between them (a turn whose response produced no assistant text)
leave the streaming app's history with two adjacent user entries, so the
strict role alternation does not hold. -/
theorem claimC4_cex :
    ¬ List.Chain' (fun a b : Dialog.Entry => a.role ≠ b.role)
      (AppStream.runS
        [AppStream.SEv.userTranscript "a", AppStream.SEv.userTranscript "b"]
        AppStream.initS).conv := by
  intro h
  have hconv : (AppStream.runS
      [AppStream.SEv.userTranscript "a", AppStream.SEv.userTranscript "b"]
      AppStream.initS).conv
      = [⟨Dialog.Role.user, "a"⟩, ⟨Dialog.Role.user, "b"⟩] := rfl
  rw [hconv] at h
  exact (List.chain'_cons.mp h).1 rfl

/-- C4 (amended): in every reachable history of the streaming app no two
adjacent entries are both assistant entries (`text_chunk` appends an assistant
entry only when the trailing entry is not one); adjacent user entries, by
contrast, do occur whenever a `user_transcript` arrives after a turn that
produced no assistant text, so full role alternation fails only on the user
side. -/
theorem claimC4 (evs : List AppStream.SEv) :
    List.Chain' AppStream.RoleOk (AppStream.runS evs AppStream.initS).conv :=
  AppStream.chain'_runS evs List.chain'_nil

/-- C7: `interruptAI` is idempotent on the observables named by the claim:
a second immediate call changes none of playback queue, active sources,
`isProcessingQueue`, processing flag or streaming text, and already after one
call they are `[]`, `[]`, `false`, `false`, `""`.  (The player's generation
counter does differ between one and two calls, but it is not among the
claim's observables.) -/
theorem claimC7 (c : Client.CState) :
    Client.obs (Client.interruptAI (Client.interruptAI c))
        = Client.obs (Client.interruptAI c)
    ∧ Client.obs (Client.interruptAI c) = ⟨[], [], false, false, ""⟩ :=
  ⟨rfl, rfl⟩

namespace Protocol

/-- A JSON scalar occurring in the control frames of interest. -/
inductive JVal where
  | s (v : String)
  | n (v : Int)
deriving DecidableEq, Repr

/-- A control frame, as the ordered key/value record the client serializes. -/
abbrev Frame := List (String × JVal)

/-- The `audio_config` frame sent by `AudioStreamer.initialize`
(`AudioStreamer.ts`). -/
def streamerAudioConfig : Frame :=
  [("type", JVal.s "audio_config"),
   ("sampleRate", JVal.n 8000),
   ("encoding", JVal.s "LINEAR16"),
   ("channels", JVal.n 1)]

/-- The `audio_config` frame sent by `startListening` of the debug agent
component (first component of `AgentDebug.tsx`). -/
def debugAudioConfig : Frame :=
  [("type", JVal.s "audio_config"),
   ("sampleRate", JVal.n 8000),
   ("channels", JVal.n 1),
   ("format", JVal.s "pcm16")]

/-- All code paths of the frontend that send an `audio_config` frame. -/
def audioConfigFrames : List Frame :=
  [streamerAudioConfig, debugAudioConfig]

end Protocol

/-- C6: the claim fails on the code.  Not every `audio_config` frame carries
`sample_rate = 8000`, `encoding = "LINEAR16"`, `channels = 1`: both code
paths use the camel-case key `sampleRate` (there is no `sample_rate` field at
all), and the debug component's frame carries `format: "pcm16"` and no
`encoding` field. -/
theorem claimC6_cex :
    ¬ (∀ f ∈ Protocol.audioConfigFrames,
        List.lookup "sample_rate" f = some (Protocol.JVal.n 8000)
        ∧ List.lookup "encoding" f = some (Protocol.JVal.s "LINEAR16")
        ∧ List.lookup "channels" f = some (Protocol.JVal.n 1)) := by
  intro h
  have := h Protocol.debugAudioConfig (by decide)
  revert this
  decide

/-- C6 (amended): every `audio_config` frame the client sends carries
`sampleRate = 8000` and `channels = 1` (under the camel-case key, not the
spec's `sample_rate`); the `AudioStreamer.initialize` path additionally
carries `encoding = "LINEAR16"`, while the debug component's path instead
carries `format = "pcm16"` and no `encoding` field. -/
theorem claimC6 :
    List.lookup "sampleRate" Protocol.streamerAudioConfig
        = some (Protocol.JVal.n 8000)
    ∧ List.lookup "channels" Protocol.streamerAudioConfig = some (Protocol.JVal.n 1)
    ∧ List.lookup "encoding" Protocol.streamerAudioConfig
        = some (Protocol.JVal.s "LINEAR16")
    ∧ List.lookup "sampleRate" Protocol.debugAudioConfig = some (Protocol.JVal.n 8000)
    ∧ List.lookup "channels" Protocol.debugAudioConfig = some (Protocol.JVal.n 1)
    ∧ List.lookup "encoding" Protocol.debugAudioConfig = none
    ∧ List.lookup "format" Protocol.debugAudioConfig = some (Protocol.JVal.s "pcm16") := by
  decide

namespace PCM

/-- `Math.max(-1, Math.min(1, x))` — the clamp of `floatTo16BitPCM`.  Samples
are modelled as exact rationals: every finite `Float32` value is rational, and
both scalings below (`* 0x8000`, `* 0x7FFF`) are exact on `Float32` inputs in
double arithmetic, so the rational model computes the very value the code
passes to `setInt16`. -/
def clamp (x : ℚ) : ℚ :=
  max (-1) (min 1 x)

/-- Truncation toward zero — the integer conversion `DataView.setInt16`
applies to its number argument. -/
def truncToInt (q : ℚ) : ℤ :=
  if 0 ≤ q then ⌊q⌋ else ⌈q⌉

/-- The signed 16-bit value computed for one sample:
`s < 0 ? s * 0x8000 : s * 0x7FFF` after clamping. -/
def pcmSample (x : ℚ) : ℤ :=
  truncToInt (if clamp x < 0 then clamp x * 32768 else clamp x * 32767)

/-- The two bytes `setInt16(offset, v, true)` writes: the unsigned 16-bit
two's-complement image of `v`, low byte first (little-endian). -/
def int16Bytes (v : ℤ) : List Nat :=
  [(v % 65536).toNat % 256, (v % 65536).toNat / 256]

/-- `floatTo16BitPCM` (`AudioStreamer.ts`): two little-endian bytes per input
sample. -/
def floatTo16BitPCM (input : List ℚ) : List Nat :=
  input.flatMap (fun x => int16Bytes (pcmSample x))

/-- Read a byte stream back as little-endian signed 16-bit values. -/
def decode16 : List Nat → List ℤ
  | lo :: hi :: rest =>
    (if lo + 256 * hi < 32768 then ((lo + 256 * hi : Nat) : ℤ)
     else ((lo + 256 * hi : Nat) : ℤ) - 65536) :: decode16 rest
  | _ => []

theorem clamp_le (x : ℚ) : clamp x ≤ 1 :=
  max_le (by norm_num) (min_le_left _ _)

theorem le_clamp (x : ℚ) : -1 ≤ clamp x :=
  le_max_left _ _

theorem pcmSample_range (x : ℚ) : -32768 ≤ pcmSample x ∧ pcmSample x ≤ 32767 := by
  have hc1 := le_clamp x
  have hc2 := clamp_le x
  rw [pcmSample]
  by_cases h : clamp x < 0
  · rw [if_pos h]
    have hq1 : (-32768 : ℚ) ≤ clamp x * 32768 := by nlinarith
    have hq2 : clamp x * 32768 ≤ 0 := by nlinarith
    rw [truncToInt]
    by_cases h0 : (0 : ℚ) ≤ clamp x * 32768
    · rw [if_pos h0]
      constructor
      · exact Int.le_floor.mpr (by exact_mod_cast hq1)
      · have := (Int.floor_le (clamp x * 32768)).trans hq2
        have hle : (⌊clamp x * 32768⌋ : ℚ) ≤ 32767 := by linarith
        exact_mod_cast hle
    · rw [if_neg h0]
      constructor
      · have := (Int.le_ceil (clamp x * 32768))
        have hle : (-32768 : ℚ) ≤ (⌈clamp x * 32768⌉ : ℚ) := by linarith
        exact_mod_cast hle
      · have hcz : ⌈clamp x * 32768⌉ ≤ (0 : ℤ) :=
          Int.ceil_le.mpr (by exact_mod_cast hq2)
        omega
  · rw [if_neg h]
    push_neg at h
    have hq1 : (0 : ℚ) ≤ clamp x * 32767 := mul_nonneg h (by norm_num)
    have hq2 : clamp x * 32767 ≤ 32767 := by nlinarith
    rw [truncToInt, if_pos hq1]
    constructor
    · have := Int.floor_nonneg.mpr hq1
      omega
    · have := (Int.floor_le (clamp x * 32767)).trans hq2
      have hle : (⌊clamp x * 32767⌋ : ℚ) ≤ 32767 := by linarith
      exact_mod_cast hle

theorem int16Bytes_decode (v : ℤ) (rest : List Nat)
    (h1 : -32768 ≤ v) (h2 : v ≤ 32767) :
    decode16 (int16Bytes v ++ rest) = v :: decode16 rest := by
  have hu : (v % 65536).toNat % 256 + 256 * ((v % 65536).toNat / 256)
      = (v % 65536).toNat := Nat.mod_add_div _ 256
  simp only [int16Bytes, List.cons_append, List.nil_append, decode16, hu]
  congr 1
  split
  · next hlt => omega
  · next hge => omega

/-- C9: `floatTo16BitPCM` writes exactly two bytes per input sample; reading
the output back as little-endian signed 16-bit values recovers, for every
sample, the truncation of `clamp(x) * 0x8000` when the clamped sample is
negative and of `clamp(x) * 0x7FFF` otherwise; and every encoded value lies
in `[-32768, 32767]`. -/
theorem claimC9 (input : List ℚ) :
    (floatTo16BitPCM input).length = 2 * input.length
    ∧ decode16 (floatTo16BitPCM input) = input.map pcmSample
    ∧ List.Forall (fun v : ℤ => -32768 ≤ v ∧ v ≤ 32767) (input.map pcmSample) := by
  induction input with
  | nil => exact ⟨rfl, rfl, trivial⟩
  | cons x xs ih =>
    obtain ⟨ihl, ihd, ihf⟩ := ih
    have hsplit : floatTo16BitPCM (x :: xs)
        = int16Bytes (pcmSample x) ++ floatTo16BitPCM xs :=
      List.flatMap_cons x xs _
    refine ⟨?_, ?_, ?_⟩
    · rw [hsplit, List.length_append, ihl]
      simp only [int16Bytes, List.length_cons, List.length_nil]
      omega
    · rw [hsplit,
        int16Bytes_decode _ _ (pcmSample_range x).1 (pcmSample_range x).2, ihd]
      rfl
    · rw [List.map_cons, List.forall_cons]
      exact ⟨pcmSample_range x, ihf⟩

end PCM

namespace Resample

/-- `Math.round` on the values arising here: `⌊q + 1/2⌋` (round half up).  For
the 48000/8000 instance every rounded quantity is exactly representable, so
the rational model matches the double arithmetic of the source. -/
def jsRound (q : ℚ) : ℤ :=
  ⌊q + 1 / 2⌋

/-- The `while` loop of `downsample`: one output entry per iteration, built
from the inner `for` loop that averages `buffer[i]` for
`offsetBuffer ≤ i < nextOffsetBuffer` and `i < buffer.length` (sum divided by
count, the count being the length of that slice). -/
def dsLoop (buffer : List ℚ) (factor : ℚ) (newLength j offsetBuffer : ℕ) :
    List ℚ :=
  if j < newLength then
    ((buffer.drop offsetBuffer).take
        (min ((jsRound ((j + 1 : ℚ) * factor)).toNat) buffer.length - offsetBuffer)).sum
      / (((buffer.drop offsetBuffer).take
        (min ((jsRound ((j + 1 : ℚ) * factor)).toNat) buffer.length - offsetBuffer)).length : ℚ)
      :: dsLoop buffer factor newLength (j + 1) ((jsRound ((j + 1 : ℚ) * factor)).toNat)
  else []
termination_by newLength - j

/-- `downsample(buffer, fromSampleRate, toSampleRate)` (`AudioStreamer.ts`):
`sampleRateRatio = from / to`, `newLength = round(length / sampleRateRatio)`,
then the averaging loop starting at `offsetResult = offsetBuffer = 0`. -/
def downsample (buffer : List ℚ) (fromRate toRate : ℕ) : List ℚ :=
  dsLoop buffer ((fromRate : ℚ) / (toRate : ℚ))
    ((jsRound ((buffer.length : ℚ) / ((fromRate : ℚ) / (toRate : ℚ)))).toNat) 0 0

/-- The input slice averaged into output index `j` in the factor-6 instance:
`buffer[6j ... min(6(j+1), length) - 1]`. -/
def sliceAt (buffer : List ℚ) (j : ℕ) : List ℚ :=
  (buffer.drop (6 * j)).take (min (6 * (j + 1)) buffer.length - 6 * j)

theorem jsRound_natCast (n : ℕ) : jsRound (n : ℚ) = n := by
  rw [jsRound]
  rw [Int.floor_eq_iff]
  constructor
  · push_cast
    linarith
  · push_cast
    linarith

theorem dsLoop_six (buffer : List ℚ) (n : ℕ) :
    ∀ (k j : ℕ), j + k = n →
      dsLoop buffer 6 n j (6 * j)
        = (List.range' j k).map
            (fun i => (sliceAt buffer i).sum / ((sliceAt buffer i).length : ℚ)) := by
  intro k
  induction k with
  | zero =>
    intro j hj
    rw [dsLoop, if_neg (by omega)]
    rfl
  | succ k ih =>
    intro j hj
    have hnext : (jsRound ((j + 1 : ℚ) * 6)).toNat = 6 * (j + 1) := by
      have hcast : ((j : ℚ) + 1) * 6 = ((6 * (j + 1) : ℕ) : ℚ) := by
        push_cast
        ring
      rw [hcast, jsRound_natCast]
      exact Int.toNat_natCast _
    rw [dsLoop, if_pos (by omega), hnext, List.range'_succ j k 1]
    rw [ih (j + 1) (by omega)]
    rfl

theorem downsample_eq (buffer : List ℚ) :
    downsample buffer 48000 8000
      = (List.range' 0 ((jsRound ((buffer.length : ℚ) / 6)).toNat)).map
          (fun i => (sliceAt buffer i).sum / ((sliceAt buffer i).length : ℚ)) := by
  have hf : ((48000 : ℕ) : ℚ) / ((8000 : ℕ) : ℚ) = 6 := by norm_num
  rw [downsample, hf]
  exact dsLoop_six buffer _ _ 0 (Nat.zero_add _)

theorem jsRound_div_six (len : ℕ) :
    (jsRound ((len : ℚ) / 6)).toNat = (len + 3) / 6 := by
  have h1 : (len : ℚ) / 6 + 1 / 2 = ((len + 3 : ℕ) : ℚ) / 6 := by
    push_cast
    ring
  have h2 : ⌊((len + 3 : ℕ) : ℚ) / 6⌋ = (((len + 3) / 6 : ℕ) : ℤ) := by
    rw [Int.floor_eq_iff]
    constructor
    · rw [le_div_iff₀ (by norm_num : (0 : ℚ) < 6)]
      push_cast
      have := Nat.div_mul_le_self (len + 3) 6
      exact_mod_cast this
    · rw [div_lt_iff₀ (by norm_num : (0 : ℚ) < 6)]
      push_cast
      have : len + 3 < ((len + 3) / 6 + 1) * 6 := by omega
      exact_mod_cast this
  rw [jsRound, h1, h2, Int.toNat_natCast]

end Resample

/-- C10: the downsampler is total in the 48000 to 8000 configuration it is
used with.  For every non-empty buffer the output length is
`round(length / 6)`; the output is exactly the list of slice averages for
output indices `0, …, newLength - 1` (slice `j` covering input indices
`6j ≤ i < min(6(j+1), length)`); and every such slice is non-empty — the
inner loop's count is never zero, so no output entry divides by zero. -/
theorem claimC10 (buffer : List ℚ) (_hne : buffer ≠ []) :
    (Resample.downsample buffer 48000 8000).length
        = (Resample.jsRound ((buffer.length : ℚ) / 6)).toNat
    ∧ Resample.downsample buffer 48000 8000
        = (List.range' 0 ((Resample.jsRound ((buffer.length : ℚ) / 6)).toNat)).map
            (fun i => (Resample.sliceAt buffer i).sum
              / ((Resample.sliceAt buffer i).length : ℚ))
    ∧ ∀ i, i < (Resample.jsRound ((buffer.length : ℚ) / 6)).toNat →
        0 < (Resample.sliceAt buffer i).length := by
  refine ⟨?_, Resample.downsample_eq buffer, ?_⟩
  · rw [Resample.downsample_eq buffer, List.length_map, List.length_range']
  · intro i hi
    rw [Resample.jsRound_div_six] at hi
    rw [Resample.sliceAt, List.length_take, List.length_drop]
    omega

theorem claimC10_witness :
    (Resample.downsample [1, 2, 3, 4, 5, 6, 7] 48000 8000).length
        = (Resample.jsRound (((([1, 2, 3, 4, 5, 6, 7] : List ℚ).length : ℚ)) / 6)).toNat
    ∧ 0 < (Resample.sliceAt [1, 2, 3, 4, 5, 6, 7] 0).length :=
  ⟨(claimC10 [1, 2, 3, 4, 5, 6, 7] (by decide)).1,
   (claimC10 [1, 2, 3, 4, 5, 6, 7] (by decide)).2.2 0
     (by rw [Resample.jsRound_div_six]; decide)⟩
